import Mathlib

/-!
Verification of the Poisson distribution table builder and distribution cache
of rocRAND (`library/src/rng/distribution/poisson.hpp`).

The table builder (`poisson_distribution::calculate_probabilities`) scans
outward from the mode of the distribution, evaluating the probability mass
function in log space as `exp(x*log(lambda) - lgamma(x+1) - lambda)`, cuts
off each tail at the first value below `p_epsilon = 1e-12`, and compacts the
kept window `[lo, hi]` down to index 0.  We embed the scan and compaction
control flow exactly, abstracting the numerical evaluation of the PMF at an
integer point `x` as a function `f : ℤ → ℚ` (the double-precision value of
`exp(x*log(lambda) - lgamma(x+1) - lambda)`), so the scan logic can be proved
for every possible evaluation and executed on concrete rational instances.

The window geometry computed by `poisson_distribution::set_lambda`
(`capacity = 2 * (size_t)(16*(2+sqrt(lambda)))`, `left = floor(lambda) -
capacity/2`) is embedded over the real numbers.

The cache (`poisson_distribution_manager`) is embedded as a state machine
over an explicit heap of live allocation handles; the operations of the
discrete-distribution base class (`init`, `deallocate`), which live outside
this file's sources, are modelled from the spec.
-/

namespace RocrandPoisson

/-- The negligibility threshold `p_epsilon = 1e-12` from
`calculate_probabilities`, written as the rational `1 / 10^12`. -/
def p_epsilon : ℚ := mkRat 1 1000000000000

/-- Pointwise update of the probability buffer (`p[i] = v` on the
`std::vector<double>`). -/
def upd (p : ℕ → ℚ) (i : ℕ) (v : ℚ) : ℕ → ℚ :=
  fun j => if j = i then v else p j

/-- The downward scan of `calculate_probabilities`:
`for (int i = capacity/2; i >= 0; i--)`, with `f x` standing for the computed
probability `exp(x*log(lambda) - lgamma(x+1) - lambda)` at `x = left + i`.
On the first value below `p_epsilon` it stops with `lo = i + 1`; if the loop
runs to `i = 0` the cutoff keeps its initial value `lo = 0`.  Returns the
buffer and `lo`. -/
def scanDown (f : ℤ → ℚ) (left : ℤ) : ℕ → (ℕ → ℚ) → ((ℕ → ℚ) × ℕ)
  | i, p =>
    if f (left + (i : ℤ)) < p_epsilon then
      (p, i + 1)
    else
      match i with
      | 0 => (upd p 0 (f (left + ((0 : ℕ) : ℤ))), 0)
      | Nat.succ i' =>
          scanDown f left i' (upd p (i' + 1) (f (left + ((i' + 1 : ℕ) : ℤ))))

/-- The upward scan of `calculate_probabilities`:
`for (int i = capacity/2 + 1; i < (int)capacity; i++)`.  On the first value
below `p_epsilon` it stops with `hi = i - 1`; if the loop exhausts the buffer
the cutoff keeps its initial value `hi = capacity - 1`.  The structural
recursion is on `fuel`, the number of remaining iterations: the caller passes
`fuel = capacity - i`, so `fuel = 0` is exactly the loop exit condition
`i >= capacity`.  Returns the buffer and `hi`. -/
def scanUpA (f : ℤ → ℚ) (left : ℤ) (capacity : ℕ) :
    ℕ → ℕ → (ℕ → ℚ) → ((ℕ → ℚ) × ℤ)
  | 0, _, p => (p, (capacity : ℤ) - 1)
  | Nat.succ fuel, i, p =>
    if f (left + (i : ℤ)) < p_epsilon then
      (p, (i : ℤ) - 1)
    else
      scanUpA f left capacity fuel (i + 1) (upd p i (f (left + (i : ℤ))))

/-- The upward scan entered at index `i` with the loop bound `capacity`. -/
def scanUp (f : ℤ → ℚ) (left : ℤ) (capacity : ℕ) (i : ℕ) (p : ℕ → ℚ) :
    (ℕ → ℚ) × ℤ :=
  scanUpA f left capacity (capacity - i) i p

/-- The compaction loop of `calculate_probabilities`:
`for (int i = lo; i <= hi; i++) p[i - lo] = p[i];`, written with `j = i - lo`
and an explicit iteration count `n = hi - lo + 1`. -/
def shiftLoop (lo : ℕ) : ℕ → ℕ → (ℕ → ℚ) → (ℕ → ℚ)
  | 0, _, p => p
  | Nat.succ k, j, p => shiftLoop lo k (j + 1) (upd p j (p (lo + j)))

/-- The outcome of `calculate_probabilities`: the probability buffer, the two
cutoffs, and the stored `size = hi - lo + 1` and `offset = left + lo`. -/
structure CalcResult where
  p : ℕ → ℚ
  lo : ℕ
  hi : ℤ
  size : ℤ
  offset : ℤ

/-- Embedding of `poisson_distribution::calculate_probabilities`.  The buffer
starts zero-initialised (`std::vector<double> p(capacity)`), the downward scan
starts at `capacity/2`, the upward scan at `capacity/2 + 1`, and the kept
window `[lo, hi]` is shifted down to index 0.  `f x` abstracts the
double-precision evaluation of `exp(x*log(lambda) - lgamma(x+1) - lambda)`
and `left` the value `floor(lambda) - capacity/2` computed by the caller. -/
def calculate_probabilities (f : ℤ → ℚ) (capacity : ℕ) (left : ℤ) : CalcResult :=
  let d := scanDown f left (capacity / 2) (fun _ => 0)
  let u := scanUp f left capacity (capacity / 2 + 1) d.1
  let lo := d.2
  let hi := u.2
  let pFinal := shiftLoop lo (hi - lo + 1).toNat 0 u.1
  ⟨pFinal, lo, hi, hi - (lo : ℤ) + 1, left + lo⟩

/-- The capacity computed by `poisson_distribution::set_lambda`:
`2 * static_cast<size_t>(16.0 * (2.0 + std::sqrt(lambda)))` (for the
nonnegative arguments in use, the cast truncates, i.e. takes the floor). -/
noncomputable def capacityOf (lambda : ℝ) : ℕ :=
  2 * ⌊16 * (2 + Real.sqrt lambda)⌋₊

/-- The window start computed inside `calculate_probabilities`:
`static_cast<int>(std::floor(lambda)) - capacity / 2`. -/
noncomputable def leftOf (lambda : ℝ) (capacity : ℕ) : ℤ :=
  ⌊lambda⌋ - (capacity / 2 : ℕ)

/-!
The distribution cache `poisson_distribution_manager`.  Device resources are
modelled by a heap of live allocation handles; handle `0` is the null handle
of a default-constructed distribution.
-/

/-- The allocator state: the list of live allocation handles and the next
fresh handle (fresh handles start at 1; 0 is the null handle). -/
structure Heap where
  live : List ℕ
  next : ℕ
deriving DecidableEq

/-- The empty heap. -/
def Heap.empty : Heap := ⟨[], 1⟩

/-- Releasing a handle removes it from the live list; releasing a handle that
is not live (in particular the null handle 0) is a no-op. -/
def Heap.release (h : Heap) (id : ℕ) : Heap :=
  ⟨h.live.erase id, h.next⟩

/-- Allocating returns a fresh handle and marks it live. -/
def Heap.alloc (h : Heap) : ℕ × Heap :=
  (h.next, ⟨h.next :: h.live, h.next + 1⟩)

/-- The observable state of a `poisson_distribution` object: the table window
(`size`, `offset`), the probability table contents, and the handle of the
device-resident sampling structure (`0` when default-constructed, i.e. no
resource). -/
structure Dis where
  size : ℤ
  offset : ℤ
  table : List ℚ
  handle : ℕ
deriving DecidableEq

/-- A default-constructed `poisson_distribution` (`dis = {}`): no table, null
handle. -/
def Dis.empty : Dis := ⟨0, 0, [], 0⟩

/-- Modelled from the spec: `discrete_distribution_base::init` (declared in
`discrete.hpp`, outside these sources) receives the probability array, size
and offset, releases the previously held sampling structure's resources, and
builds a fresh device-resident sampling structure from the array
(section 4.2: the previous structure's resources are fully released as part
of the replacement; section 6: `init` builds the O(1) sampling structure). -/
def Dis.init (d : Dis) (p : List ℚ) (size offset : ℤ) (h : Heap) : Dis × Heap :=
  let h1 := h.release d.handle
  let a := h1.alloc
  (⟨size, offset, p, a.1⟩, a.2)

/-- Modelled from the spec: `discrete_distribution_base::deallocate` releases
the held sampling structure's resources; releasing an already-cleared (null)
handle is a safe no-op (section 7, double-release). -/
def Dis.deallocate (d : Dis) (h : Heap) : Heap :=
  h.release d.handle

/-- Embedding of `poisson_distribution::set_lambda` at the cache's level of
abstraction: the table builder is abstracted as `build`, giving the
probability array, size and offset handed to `init` for a given lambda. -/
def Dis.set_lambda (build : ℚ → List ℚ × ℤ × ℤ) (d : Dis) (lambda : ℚ)
    (h : Heap) : Dis × Heap :=
  let r := build lambda
  d.init r.1 r.2.1 r.2.2 h

/-- The state of a `poisson_distribution_manager`: the owned distribution and
the stored lambda (`double lambda = 0.0`). -/
structure Manager where
  dis : Dis
  lambda : ℚ
deriving DecidableEq

/-- A default-constructed `poisson_distribution_manager`. -/
def Manager.empty : Manager := ⟨Dis.empty, 0⟩

/-- Embedding of `poisson_distribution_manager::set_lambda`:
`changed = lambda != new_lambda; if (changed) { lambda = new_lambda;
dis.set_lambda(lambda); }` — an exact inequality test, and a complete no-op
when the stored lambda is unchanged. -/
def Manager.set_lambda (build : ℚ → List ℚ × ℤ × ℤ) (m : Manager)
    (new_lambda : ℚ) (h : Heap) : Manager × Heap :=
  if m.lambda ≠ new_lambda then
    let r := Dis.set_lambda build m.dis new_lambda h
    (⟨r.1, new_lambda⟩, r.2)
  else
    (m, h)

/-- Embedding of the move constructor
`poisson_distribution_manager(poisson_distribution_manager&& other)`:
copies `other.dis` and `other.lambda`, then clears `other.dis = {}` (and
leaves `other.lambda` untouched).  Returns the new instance and the state of
`other` afterwards. -/
def Manager.moveCtor (other : Manager) : Manager × Manager :=
  (⟨other.dis, other.lambda⟩, ⟨Dis.empty, other.lambda⟩)

/-- Embedding of the move assignment
`operator=(poisson_distribution_manager&& other)`: overwrites `dis` and
`lambda` of the target with those of `other` (without deallocating the
target's previous `dis`), then clears `other.dis = {}`.  Returns the target
and the state of `other` afterwards. -/
def Manager.moveAssign (_target other : Manager) : Manager × Manager :=
  (⟨other.dis, other.lambda⟩, ⟨Dis.empty, other.lambda⟩)

/-- Embedding of the destructor `~poisson_distribution_manager`:
`dis.deallocate()`. -/
def Manager.destroy (m : Manager) (h : Heap) : Heap :=
  m.dis.deallocate h

/-- A sample probability evaluation used to run the builder on concrete
inputs: value 1 at the points 0 and 1 of the support, 0 elsewhere. -/
def sampleF : ℤ → ℚ := fun x => if 0 ≤ x ∧ x ≤ 1 then 1 else 0

/-- A sample table builder used to run the cache model on concrete inputs. -/
def sampleBuild : ℚ → List ℚ × ℤ × ℤ := fun _ => ([1], 1, 0)

/-- A sample manager owning handle 1, for concrete runs of the cache model. -/
def sampleManager : Manager := ⟨⟨1, 0, [1], 1⟩, 1⟩

/-- A second sample manager owning handle 2. -/
def sampleManager2 : Manager := ⟨⟨1, 0, [1], 2⟩, 2⟩

/-- A sample heap in which handles 1 and 2 are live. -/
def sampleHeap : Heap := ⟨[1, 2], 3⟩

/-!
Characterisation lemmas for the scans and the compaction.
-/

theorem upd_self (p : ℕ → ℚ) (i : ℕ) (v : ℚ) : upd p i v i = v := by
  simp [upd]

theorem upd_ne (p : ℕ → ℚ) (i : ℕ) (v : ℚ) {j : ℕ} (h : j ≠ i) :
    upd p i v j = p j := by
  simp [upd, h]

/-- The downward cutoff never exceeds one past the starting index. -/
theorem scanDown_lo_le (f : ℤ → ℚ) (left : ℤ) :
    ∀ (i : ℕ) (p : ℕ → ℚ), (scanDown f left i p).2 ≤ i + 1 := by
  intro i
  induction i with
  | zero =>
    intro p
    rw [scanDown]
    split
    · exact le_refl _
    · simp
  | succ i' ih =>
    intro p
    rw [scanDown]
    split
    · exact le_refl _
    · exact le_trans (ih _) (by omega)

/-- The downward scan stops at the first (largest, since the scan is
descending) index whose probability is below the threshold, recording
`lo = i + 1`; if no probability in `[0, start]` is below the threshold, the
cutoff keeps its initial value `lo = 0`. -/
theorem scanDown_lo_spec (f : ℤ → ℚ) (left : ℤ) :
    ∀ (i : ℕ) (p : ℕ → ℚ),
      ((scanDown f left i p).2 = 0 ∧
        ∀ k : ℕ, k ≤ i → ¬ f (left + (k : ℤ)) < p_epsilon) ∨
      (1 ≤ (scanDown f left i p).2 ∧
        f (left + (((scanDown f left i p).2 - 1 : ℕ) : ℤ)) < p_epsilon ∧
        ∀ k : ℕ, (scanDown f left i p).2 ≤ k → k ≤ i →
          ¬ f (left + (k : ℤ)) < p_epsilon) := by
  intro i
  induction i with
  | zero =>
    intro p
    rw [scanDown]
    split
    · rename_i hc
      right
      refine ⟨by omega, by simpa using hc, ?_⟩
      intro k hk hk0
      omega
    · rename_i hc
      left
      refine ⟨rfl, ?_⟩
      intro k hk
      interval_cases k
      · exact hc
  | succ i' ih =>
    intro p
    rw [scanDown]
    split
    · rename_i hc
      right
      refine ⟨by omega, by simpa using hc, ?_⟩
      intro k hk hk'
      omega
    · rename_i hc
      rcases ih (upd p (i' + 1) (f (left + ((i' + 1 : ℕ) : ℤ)))) with
        ⟨hlo, hall⟩ | ⟨hlo, hcross, hall⟩
      · left
        refine ⟨hlo, ?_⟩
        intro k hk
        rcases Nat.lt_or_ge k (i' + 1) with hk' | hk'
        · exact hall k (by omega)
        · have hk2 : k = i' + 1 := by omega
          subst hk2
          exact hc
      · right
        refine ⟨hlo, hcross, ?_⟩
        intro k hk hk'
        rcases Nat.lt_or_ge k (i' + 1) with hk2 | hk2
        · exact hall k hk (by omega)
        · have hk3 : k = i' + 1 := by omega
          subst hk3
          exact hc

/-- Buffer contents after the downward scan: exactly the indices in
`[lo, start]` hold the computed probabilities, everything else is
untouched. -/
theorem scanDown_p_spec (f : ℤ → ℚ) (left : ℤ) :
    ∀ (i : ℕ) (p : ℕ → ℚ) (j : ℕ),
      (scanDown f left i p).1 j =
        if (scanDown f left i p).2 ≤ j ∧ j ≤ i then f (left + (j : ℤ))
        else p j := by
  intro i
  induction i with
  | zero =>
    intro p j
    rw [scanDown]
    split
    · rw [if_neg (by omega : ¬ (0 + 1 ≤ j ∧ j ≤ 0))]
    · by_cases hj : j = 0
      · subst hj
        rw [if_pos ⟨le_refl 0, le_refl 0⟩]
        exact upd_self p 0 _
      · rw [if_neg (by omega : ¬ ((0 : ℕ) ≤ j ∧ j ≤ 0))]
        exact upd_ne p 0 _ hj
  | succ i' ih =>
    intro p j
    rw [scanDown]
    split
    · rw [if_neg (by omega : ¬ (i' + 1 + 1 ≤ j ∧ j ≤ i' + 1))]
    · have hlole := scanDown_lo_le f left i'
        (upd p (i' + 1) (f (left + ((i' + 1 : ℕ) : ℤ))))
      rw [ih (upd p (i' + 1) (f (left + ((i' + 1 : ℕ) : ℤ)))) j]
      set lo := (scanDown f left i'
        (upd p (i' + 1) (f (left + ((i' + 1 : ℕ) : ℤ))))).2 with hlodef
      by_cases h1 : lo ≤ j
      · by_cases h2 : j ≤ i'
        · rw [if_pos ⟨h1, h2⟩, if_pos ⟨h1, by omega⟩]
        · by_cases h3 : j = i' + 1
          · subst h3
            rw [if_neg (by omega : ¬ (lo ≤ i' + 1 ∧ i' + 1 ≤ i')),
              if_pos ⟨h1, le_refl (i' + 1)⟩]
            exact upd_self p (i' + 1) _
          · rw [if_neg (by omega : ¬ (lo ≤ j ∧ j ≤ i')),
              if_neg (by omega : ¬ (lo ≤ j ∧ j ≤ i' + 1))]
            exact upd_ne p (i' + 1) _ h3
      · rw [if_neg (by omega : ¬ (lo ≤ j ∧ j ≤ i')),
          if_neg (by omega : ¬ (lo ≤ j ∧ j ≤ i' + 1))]
        exact upd_ne p (i' + 1) _ (by omega)

/-- Behaviour of the upward scan entered at index `i` with `fuel` remaining
iterations (`i + fuel = capacity`): the cutoff `hi` is either the default
`capacity - 1` when no probability in `[i, capacity)` is below the threshold,
or one less than the first (smallest) index at which the probability falls
below the threshold; the buffer holds the computed probabilities exactly on
`[i, hi]` and is untouched elsewhere. -/
theorem scanUpA_spec (f : ℤ → ℚ) (left : ℤ) (capacity : ℕ) :
    ∀ (fuel i : ℕ) (p : ℕ → ℚ), i + fuel = capacity →
      (((scanUpA f left capacity fuel i p).2 = (capacity : ℤ) - 1 ∧
          ∀ k : ℕ, i ≤ k → k < capacity → ¬ f (left + (k : ℤ)) < p_epsilon) ∨
        ((i : ℤ) ≤ (scanUpA f left capacity fuel i p).2 + 1 ∧
          (scanUpA f left capacity fuel i p).2 + 1 < (capacity : ℤ) ∧
          f (left + ((scanUpA f left capacity fuel i p).2 + 1)) < p_epsilon ∧
          ∀ k : ℕ, i ≤ k → (k : ℤ) ≤ (scanUpA f left capacity fuel i p).2 →
            ¬ f (left + (k : ℤ)) < p_epsilon)) ∧
      (∀ j : ℕ, (scanUpA f left capacity fuel i p).1 j =
        if i ≤ j ∧ (j : ℤ) ≤ (scanUpA f left capacity fuel i p).2 then
          f (left + (j : ℤ))
        else p j) := by
  intro fuel
  induction fuel with
  | zero =>
    intro i p hip
    rw [scanUpA]
    constructor
    · left
      exact ⟨rfl, fun k hk hk' => by omega⟩
    · intro j
      rw [if_neg (by omega : ¬ (i ≤ j ∧ (j : ℤ) ≤ (capacity : ℤ) - 1))]
  | succ fuel ih =>
    intro i p hip
    rw [scanUpA]
    split
    · rename_i hc
      constructor
      · right
        have hii : (i : ℤ) - 1 + 1 = (i : ℤ) := by ring
        refine ⟨by omega, by omega, ?_, fun k hk hk' => by omega⟩
        rw [hii]
        exact hc
      · intro j
        rw [if_neg (by omega : ¬ (i ≤ j ∧ (j : ℤ) ≤ (i : ℤ) - 1))]
    · rename_i hc
      rcases ih (i + 1) (upd p i (f (left + (i : ℤ)))) (by omega) with ⟨hhi, hp⟩
      set hi := (scanUpA f left capacity fuel (i + 1)
        (upd p i (f (left + (i : ℤ))))).2 with hhidef
      have hige : (i : ℤ) ≤ hi := by
        rcases hhi with ⟨heq, -⟩ | ⟨h1, -, -, -⟩
        · omega
        · omega
      constructor
      · rcases hhi with ⟨heq, hall⟩ | ⟨h1, h2, h3, hall⟩
        · left
          refine ⟨heq, ?_⟩
          intro k hk hk'
          rcases Nat.lt_or_ge k (i + 1) with hk2 | hk2
          · have : k = i := by omega
            subst this
            exact hc
          · exact hall k hk2 hk'
        · right
          refine ⟨by omega, h2, h3, ?_⟩
          intro k hk hk'
          rcases Nat.lt_or_ge k (i + 1) with hk2 | hk2
          · have : k = i := by omega
            subst this
            exact hc
          · exact hall k hk2 hk'
      · intro j
        rw [hp j]
        by_cases h1 : i + 1 ≤ j
        · by_cases h2 : (j : ℤ) ≤ hi
          · rw [if_pos ⟨h1, h2⟩, if_pos ⟨by omega, h2⟩]
          · rw [if_neg (by omega : ¬ (i + 1 ≤ j ∧ (j : ℤ) ≤ hi)),
              if_neg (by omega : ¬ (i ≤ j ∧ (j : ℤ) ≤ hi))]
            exact upd_ne p i _ (by omega)
        · by_cases h3 : j = i
          · subst h3
            rw [if_neg (by omega : ¬ (j + 1 ≤ j ∧ (j : ℤ) ≤ hi)),
              if_pos ⟨le_refl j, hige⟩]
            exact upd_self p j _
          · rw [if_neg (by omega : ¬ (i + 1 ≤ j ∧ (j : ℤ) ≤ hi)),
              if_neg (by omega : ¬ (i ≤ j ∧ (j : ℤ) ≤ hi))]
            exact upd_ne p i _ h3

/-- Behaviour of `scanUp` as it is invoked by `calculate_probabilities`. -/
theorem scanUp_spec (f : ℤ → ℚ) (left : ℤ) (capacity : ℕ) (i : ℕ) (p : ℕ → ℚ) :
    (((scanUp f left capacity i p).2 = (capacity : ℤ) - 1 ∧
        ∀ k : ℕ, i ≤ k → k < capacity → ¬ f (left + (k : ℤ)) < p_epsilon) ∨
      ((i : ℤ) ≤ (scanUp f left capacity i p).2 + 1 ∧
        (scanUp f left capacity i p).2 + 1 < (capacity : ℤ) ∧
        f (left + ((scanUp f left capacity i p).2 + 1)) < p_epsilon ∧
        ∀ k : ℕ, i ≤ k → (k : ℤ) ≤ (scanUp f left capacity i p).2 →
          ¬ f (left + (k : ℤ)) < p_epsilon)) ∧
    (∀ j : ℕ, (scanUp f left capacity i p).1 j =
      if i ≤ j ∧ (j : ℤ) ≤ (scanUp f left capacity i p).2 then
        f (left + (j : ℤ))
      else p j) := by
  rcases le_or_lt i capacity with hic | hic
  · exact scanUpA_spec f left capacity (capacity - i) i p (by omega)
  · unfold scanUp
    have h0 : capacity - i = 0 := by omega
    rw [h0, scanUpA]
    constructor
    · left
      exact ⟨rfl, fun k hk hk' => by omega⟩
    · intro j
      rw [if_neg (by omega : ¬ (i ≤ j ∧ (j : ℤ) ≤ (capacity : ℤ) - 1))]

/-- Behaviour of the compaction loop: iterating `p[j] = p[lo + j]` for
`n` steps starting at `j`, where the buffer already agrees with `p0` from
index `j` upward, copies `p0 (lo + k)` into every `k` in `[j, j + n)`, leaves
indices below `j` untouched, and leaves indices from `j + n` upward at their
`p0` values.  Reads happen at `lo + k ≥ k`, i.e. at positions not yet
overwritten, which is why the in-place loop is sound. -/
theorem shiftLoop_spec (lo : ℕ) (p0 : ℕ → ℚ) :
    ∀ (n j : ℕ) (p : ℕ → ℚ), (∀ k : ℕ, j ≤ k → p k = p0 k) →
      ∀ k : ℕ,
        (k < j → shiftLoop lo n j p k = p k) ∧
        (j ≤ k → k < j + n → shiftLoop lo n j p k = p0 (lo + k)) ∧
        (j + n ≤ k → shiftLoop lo n j p k = p0 k) := by
  intro n
  induction n with
  | zero =>
    intro j p hp k
    rw [shiftLoop]
    exact ⟨fun _ => rfl, fun h1 h2 => by omega, fun h => hp k (by omega)⟩
  | succ n ih =>
    intro j p hp k
    rw [shiftLoop]
    have hstore : p (lo + j) = p0 (lo + j) := hp _ (by omega)
    have hp' : ∀ k : ℕ, j + 1 ≤ k → upd p j (p (lo + j)) k = p0 k := by
      intro k hk
      rw [upd_ne p j _ (by omega)]
      exact hp k (by omega)
    have IH := ih (j + 1) (upd p j (p (lo + j))) hp' k
    refine ⟨?_, ?_, ?_⟩
    · intro hk
      rw [IH.1 (by omega)]
      exact upd_ne p j _ (by omega)
    · intro hk1 hk2
      by_cases hkj : k = j
      · subst hkj
        rw [IH.1 (by omega), upd_self, hstore]
      · exact IH.2.1 (by omega) (by omega)
    · intro hk
      exact IH.2.2 (by omega)

/-!
Characterisation of `calculate_probabilities` in terms of its scans.
-/

theorem calc_lo_def (f : ℤ → ℚ) (capacity : ℕ) (left : ℤ) :
    (calculate_probabilities f capacity left).lo =
      (scanDown f left (capacity / 2) (fun _ => 0)).2 := rfl

theorem calc_hi_def (f : ℤ → ℚ) (capacity : ℕ) (left : ℤ) :
    (calculate_probabilities f capacity left).hi =
      (scanUp f left capacity (capacity / 2 + 1)
        (scanDown f left (capacity / 2) (fun _ => 0)).1).2 := rfl

theorem calc_size_def (f : ℤ → ℚ) (capacity : ℕ) (left : ℤ) :
    (calculate_probabilities f capacity left).size =
      (calculate_probabilities f capacity left).hi -
        ((calculate_probabilities f capacity left).lo : ℤ) + 1 := rfl

theorem calc_offset_def (f : ℤ → ℚ) (capacity : ℕ) (left : ℤ) :
    (calculate_probabilities f capacity left).offset =
      left + ((calculate_probabilities f capacity left).lo : ℤ) := rfl

/-- After compaction, entry `j` of the buffer (for `j` inside the trimmed
window) is the computed probability at scan position `lo + j`. -/
theorem calc_p_eq (f : ℤ → ℚ) (capacity : ℕ) (left : ℤ) (j : ℕ)
    (hj : (j : ℤ) < (calculate_probabilities f capacity left).size) :
    (calculate_probabilities f capacity left).p j =
      f (left + (((calculate_probabilities f capacity left).lo + j : ℕ) : ℤ)) := by
  have hdown := scanDown_p_spec f left (capacity / 2) (fun _ => 0)
  have hup := (scanUp_spec f left capacity (capacity / 2 + 1)
    (scanDown f left (capacity / 2) (fun _ => 0)).1).2
  have hlodown := scanDown_lo_le f left (capacity / 2) (fun _ => 0)
  set d := scanDown f left (capacity / 2) (fun _ => 0) with hd
  set u := scanUp f left capacity (capacity / 2 + 1) d.1 with hu
  have hsize : (calculate_probabilities f capacity left).size =
      u.2 - (d.2 : ℤ) + 1 := rfl
  have hshift := shiftLoop_spec d.2 u.1 (u.2 - (d.2 : ℤ) + 1).toNat 0 u.1
    (fun _ _ => rfl) j
  have hjn : j < 0 + (u.2 - (d.2 : ℤ) + 1).toNat := by
    rw [hsize] at hj
    omega
  have hpj : (calculate_probabilities f capacity left).p j =
      u.1 (d.2 + j) := hshift.2.1 (by omega) hjn
  have hlo : (calculate_probabilities f capacity left).lo = d.2 := rfl
  rw [hpj, hlo]
  have hjhi : ((d.2 + j : ℕ) : ℤ) ≤ u.2 := by
    rw [hsize] at hj
    push_cast
    omega
  by_cases hmid : capacity / 2 + 1 ≤ d.2 + j
  · rw [hup (d.2 + j), if_pos ⟨hmid, hjhi⟩]
  · rw [hup (d.2 + j), if_neg (fun hcontra => hmid hcontra.1)]
    have hjc : d.2 + j ≤ capacity / 2 := by omega
    rw [hdown (d.2 + j), if_pos ⟨by omega, hjc⟩]

/-- Every entry of the trimmed window passed the threshold test. -/
theorem calc_p_ge_eps (f : ℤ → ℚ) (capacity : ℕ) (left : ℤ) (j : ℕ)
    (hj : (j : ℤ) < (calculate_probabilities f capacity left).size) :
    p_epsilon ≤ (calculate_probabilities f capacity left).p j := by
  rw [calc_p_eq f capacity left j hj]
  have hdown := scanDown_lo_spec f left (capacity / 2) (fun _ => 0)
  have hup := (scanUp_spec f left capacity (capacity / 2 + 1)
    (scanDown f left (capacity / 2) (fun _ => 0)).1).1
  set d := scanDown f left (capacity / 2) (fun _ => 0) with hd
  set u := scanUp f left capacity (capacity / 2 + 1) d.1 with hu
  have hsize : (calculate_probabilities f capacity left).size =
      u.2 - (d.2 : ℤ) + 1 := rfl
  have hlo : (calculate_probabilities f capacity left).lo = d.2 := rfl
  rw [hlo]
  rw [hsize] at hj
  have hjhi : ((d.2 + j : ℕ) : ℤ) ≤ u.2 := by
    push_cast
    omega
  rw [← not_lt]
  by_cases hmid : capacity / 2 + 1 ≤ d.2 + j
  · rcases hup with ⟨heq, hall⟩ | ⟨h1, h2, h3, hall⟩
    · exact hall (d.2 + j) hmid (by omega)
    · exact hall (d.2 + j) hmid hjhi
  · have hjc : d.2 + j ≤ capacity / 2 := by omega
    rcases hdown with ⟨hlo0, hall⟩ | ⟨h1, hcross, hall⟩
    · exact hall (d.2 + j) hjc
    · exact hall (d.2 + j) (by omega) hjc

/-!
Claim theorems.
-/

/-- C1: after compaction, every entry of the returned probability array at
index `j` in `[0, size)` equals the probability computed for scan position
`i = lo + j`, i.e. the log-space-evaluated Poisson PMF value
`exp(x*log(lambda) - lgamma(x+1) - lambda)` at `x = left + i = offset + j`
(the double-precision evaluation of that expression at integer `x` is the
abstracted function `f`). -/
theorem C1_compacted_entries_are_pmf_values (f : ℤ → ℚ) (capacity : ℕ)
    (left : ℤ) (j : ℕ)
    (hj : (j : ℤ) < (calculate_probabilities f capacity left).size) :
    (calculate_probabilities f capacity left).p j =
      f ((calculate_probabilities f capacity left).offset + (j : ℤ)) := by
  rw [calc_p_eq f capacity left j hj, calc_offset_def]
  congr 1
  push_cast
  ring

/-- C1 witness: a concrete run of the builder (capacity 8, window start -4,
probability 1 at support points 0 and 1) in which entry 0 of the trimmed
array equals the computed probability at `offset + 0`. -/
theorem C1_witness :
    ((0 : ℕ) : ℤ) < (calculate_probabilities sampleF 8 (-4)).size ∧
    (calculate_probabilities sampleF 8 (-4)).p 0 =
      sampleF ((calculate_probabilities sampleF 8 (-4)).offset + ((0 : ℕ) : ℤ)) :=
  ⟨by decide, C1_compacted_entries_are_pmf_values sampleF 8 (-4) 0 (by decide)⟩

/-- C2: the downward scan from `capacity/2` stops at the first index whose
probability is below `1e-12` and records `lo = i + 1` (with `lo = 0` if no
such index exists down to 0); the upward scan from `capacity/2 + 1` records
`hi = i - 1` at its first sub-threshold index (with `hi = capacity - 1` if
none exists up to `capacity - 1`); the kept entries `[lo, hi]` are shifted
down to start at index 0, `size = hi - lo + 1`, and `offset = left + lo`. -/
theorem C2_scan_cutoffs_and_compaction (f : ℤ → ℚ) (capacity : ℕ) (left : ℤ) :
    (calculate_probabilities f capacity left).size =
      (calculate_probabilities f capacity left).hi -
        ((calculate_probabilities f capacity left).lo : ℤ) + 1 ∧
    (calculate_probabilities f capacity left).offset =
      left + ((calculate_probabilities f capacity left).lo : ℤ) ∧
    (((calculate_probabilities f capacity left).lo = 0 ∧
        ∀ k : ℕ, k ≤ capacity / 2 → ¬ f (left + (k : ℤ)) < p_epsilon) ∨
      (1 ≤ (calculate_probabilities f capacity left).lo ∧
        f (left + (((calculate_probabilities f capacity left).lo - 1 : ℕ) : ℤ))
          < p_epsilon ∧
        ∀ k : ℕ, (calculate_probabilities f capacity left).lo ≤ k →
          k ≤ capacity / 2 → ¬ f (left + (k : ℤ)) < p_epsilon)) ∧
    (((calculate_probabilities f capacity left).hi = (capacity : ℤ) - 1 ∧
        ∀ k : ℕ, capacity / 2 + 1 ≤ k → k < capacity →
          ¬ f (left + (k : ℤ)) < p_epsilon) ∨
      (((capacity / 2 + 1 : ℕ) : ℤ) ≤
          (calculate_probabilities f capacity left).hi + 1 ∧
        (calculate_probabilities f capacity left).hi + 1 < (capacity : ℤ) ∧
        f (left + ((calculate_probabilities f capacity left).hi + 1))
          < p_epsilon ∧
        ∀ k : ℕ, capacity / 2 + 1 ≤ k →
          (k : ℤ) ≤ (calculate_probabilities f capacity left).hi →
          ¬ f (left + (k : ℤ)) < p_epsilon)) ∧
    (∀ j : ℕ, (j : ℤ) < (calculate_probabilities f capacity left).size →
      (calculate_probabilities f capacity left).p j =
        f (left + ((calculate_probabilities f capacity left).lo : ℤ) + (j : ℤ))) := by
  refine ⟨rfl, rfl, ?_, ?_, ?_⟩
  · rw [calc_lo_def]
    exact scanDown_lo_spec f left (capacity / 2) (fun _ => 0)
  · rw [calc_hi_def]
    exact (scanUp_spec f left capacity (capacity / 2 + 1)
      (scanDown f left (capacity / 2) (fun _ => 0)).1).1
  · intro j hj
    rw [calc_p_eq f capacity left j hj]
    congr 1
    push_cast
    ring

/-- C2 witness: on a concrete run of the builder, the compaction clause of
the characterisation applies at index 0 of the trimmed window. -/
theorem C2_witness :
    ((0 : ℕ) : ℤ) < (calculate_probabilities sampleF 8 (-4)).size ∧
    (calculate_probabilities sampleF 8 (-4)).p 0 =
      sampleF ((-4) + ((calculate_probabilities sampleF 8 (-4)).lo : ℤ) +
        ((0 : ℕ) : ℤ)) :=
  ⟨by decide,
    (C2_scan_cutoffs_and_compaction sampleF 8 (-4)).2.2.2.2 0 (by decide)⟩

/-- C4: whenever the computed probability at the center index `capacity/2`
is not below the threshold (which is what the claim's "supported range" of
lambda guarantees) and the capacity is positive, the cutoffs satisfy
`lo ≤ capacity/2` and `hi ≥ capacity/2`, so the trimmed window contains the
center and `1 ≤ size ≤ capacity`. -/
theorem C4_window_contains_mode (f : ℤ → ℚ) (capacity : ℕ) (left : ℤ)
    (hcap : 1 ≤ capacity)
    (hcenter : ¬ f (left + ((capacity / 2 : ℕ) : ℤ)) < p_epsilon) :
    (calculate_probabilities f capacity left).lo ≤ capacity / 2 ∧
    ((capacity / 2 : ℕ) : ℤ) ≤ (calculate_probabilities f capacity left).hi ∧
    1 ≤ (calculate_probabilities f capacity left).size ∧
    (calculate_probabilities f capacity left).size ≤ (capacity : ℤ) := by
  have hlole := scanDown_lo_le f left (capacity / 2) (fun _ => 0)
  have hdown := scanDown_lo_spec f left (capacity / 2) (fun _ => 0)
  have hup := (scanUp_spec f left capacity (capacity / 2 + 1)
    (scanDown f left (capacity / 2) (fun _ => 0)).1).1
  have hlo : (calculate_probabilities f capacity left).lo ≤ capacity / 2 := by
    rw [calc_lo_def]
    rcases hdown with ⟨hlo0, -⟩ | ⟨h1, hcross, -⟩
    · omega
    · by_contra hgt
      have hloeq : (scanDown f left (capacity / 2) (fun _ => 0)).2 =
          capacity / 2 + 1 := by omega
      rw [hloeq] at hcross
      have : capacity / 2 + 1 - 1 = capacity / 2 := by omega
      rw [this] at hcross
      exact hcenter hcross
  have hhi : ((capacity / 2 : ℕ) : ℤ) ≤
      (calculate_probabilities f capacity left).hi := by
    rw [calc_hi_def]
    rcases hup with ⟨heq, -⟩ | ⟨h1, -, -, -⟩
    · omega
    · omega
  refine ⟨hlo, hhi, ?_, ?_⟩
  · rw [calc_size_def]
    omega
  · rw [calc_size_def]
    have hhile : (calculate_probabilities f capacity left).hi ≤
        (capacity : ℤ) - 1 := by
      rw [calc_hi_def]
      rcases hup with ⟨heq, -⟩ | ⟨-, h2, -, -⟩
      · omega
      · omega
    omega

/-- C4 witness: a concrete run (capacity 8, window start -4) in which the
center probability passes the threshold and the resulting window contains
the center with `1 ≤ size ≤ capacity`. -/
theorem C4_witness :
    (calculate_probabilities sampleF 8 (-4)).lo ≤ 8 / 2 ∧
    (((8 : ℕ) / 2 : ℕ) : ℤ) ≤ (calculate_probabilities sampleF 8 (-4)).hi ∧
    1 ≤ (calculate_probabilities sampleF 8 (-4)).size ∧
    (calculate_probabilities sampleF 8 (-4)).size ≤ ((8 : ℕ) : ℤ) :=
  C4_window_contains_mode sampleF 8 (-4) (by decide) (by decide)

/-- C8: every entry of the trimmed probability array at indices `[0, size)`
is at least the threshold `1e-12`: entries are stored only after passing the
threshold test, and compaction copies exactly the stored entries of
`[lo, hi]` down to index 0. -/
theorem C8_entries_at_least_threshold (f : ℤ → ℚ) (capacity : ℕ) (left : ℤ)
    (j : ℕ) (hj : (j : ℤ) < (calculate_probabilities f capacity left).size) :
    p_epsilon ≤ (calculate_probabilities f capacity left).p j :=
  calc_p_ge_eps f capacity left j hj

/-- C8 witness: on a concrete run, entry 1 of the trimmed array is at least
the threshold. -/
theorem C8_witness :
    ((1 : ℕ) : ℤ) < (calculate_probabilities sampleF 8 (-4)).size ∧
    p_epsilon ≤ (calculate_probabilities sampleF 8 (-4)).p 1 :=
  ⟨by decide, C8_entries_at_least_threshold sampleF 8 (-4) 1 (by decide)⟩

/-- C5: `poisson_distribution_manager::set_lambda` with a value exactly equal
to the stored lambda (plain inequality test, no tolerance) is a complete
no-op — manager state and heap are untouched, so the table builder is not
invoked; with a different value it stores the new lambda and rebuilds via
the distribution's `set_lambda`; and the operation is idempotent: a second
call with the same lambda alters nothing observable. -/
theorem C5_set_lambda_noop_and_idempotent (build : ℚ → List ℚ × ℤ × ℤ)
    (m : Manager) (h : Heap) :
    Manager.set_lambda build m m.lambda h = (m, h) ∧
    (∀ lam : ℚ, m.lambda ≠ lam →
      Manager.set_lambda build m lam h =
        ((⟨(Dis.set_lambda build m.dis lam h).1, lam⟩ : Manager),
          (Dis.set_lambda build m.dis lam h).2)) ∧
    (∀ lam : ℚ,
      Manager.set_lambda build (Manager.set_lambda build m lam h).1 lam
          (Manager.set_lambda build m lam h).2 =
        Manager.set_lambda build m lam h) := by
  refine ⟨?_, ?_, ?_⟩
  · simp [Manager.set_lambda]
  · intro lam hne
    simp [Manager.set_lambda, hne]
  · intro lam
    by_cases hne : m.lambda ≠ lam
    · simp [Manager.set_lambda, hne]
    · push_neg at hne
      subst hne
      simp [Manager.set_lambda]

/-- C5 witness: a concrete manager and heap on which `set_lambda` with the
stored lambda is a no-op, the different lambda 5 rebuilds, and the second
call with lambda 5 changes nothing. -/
theorem C5_witness :
    Manager.set_lambda sampleBuild sampleManager sampleManager.lambda
        sampleHeap = (sampleManager, sampleHeap) ∧
    Manager.set_lambda sampleBuild sampleManager 5 sampleHeap =
      ((⟨(Dis.set_lambda sampleBuild sampleManager.dis 5 sampleHeap).1,
          5⟩ : Manager),
        (Dis.set_lambda sampleBuild sampleManager.dis 5 sampleHeap).2) ∧
    Manager.set_lambda sampleBuild
        (Manager.set_lambda sampleBuild sampleManager 5 sampleHeap).1 5
        (Manager.set_lambda sampleBuild sampleManager 5 sampleHeap).2 =
      Manager.set_lambda sampleBuild sampleManager 5 sampleHeap :=
  ⟨(C5_set_lambda_noop_and_idempotent sampleBuild sampleManager sampleHeap).1,
    (C5_set_lambda_noop_and_idempotent sampleBuild sampleManager
      sampleHeap).2.1 5 (by decide),
    (C5_set_lambda_noop_and_idempotent sampleBuild sampleManager
      sampleHeap).2.2 5⟩

/-- C6: the claim states that every replacement of the held sampling
structure — by `set_lambda` with a changed lambda, or by move assignment onto
a cache that already owns a structure — fully releases the previous
structure's resources.  The code violates this on the move-assignment path:
`operator=` overwrites `dis` with `other.dis` without deallocating the
target's previous `dis`, so its handle is never released.  This theorem
evaluates the model at the failing input: build manager A (lambda 1,
handle 1) and manager B (lambda 2, handle 2) from fresh state, move-assign B
onto A, then destroy both managers; handle 1 — the structure A owned before
the move assignment — is still live in the final heap, i.e. it leaked. -/
theorem C6_move_assign_leaks_target_resources :
    (Manager.set_lambda sampleBuild Manager.empty 1 Heap.empty).1.dis.handle
        = 1 ∧
    (Manager.destroy
        (Manager.moveAssign
          (Manager.set_lambda sampleBuild Manager.empty 1 Heap.empty).1
          (Manager.set_lambda sampleBuild Manager.empty 2
            (Manager.set_lambda sampleBuild Manager.empty 1 Heap.empty).2).1).1
        (Manager.destroy
          (Manager.moveAssign
            (Manager.set_lambda sampleBuild Manager.empty 1 Heap.empty).1
            (Manager.set_lambda sampleBuild Manager.empty 2
              (Manager.set_lambda sampleBuild Manager.empty 1
                Heap.empty).2).1).2
          (Manager.set_lambda sampleBuild Manager.empty 2
            (Manager.set_lambda sampleBuild Manager.empty 1
              Heap.empty).2).2)).live = [1] := by
  constructor
  · rfl
  · rfl

/-- C7: after move construction or move assignment, the moved-from cache's
distribution is reset to the empty (default-constructed) value, not merely
copied, the destination holds the source's previous distribution, and
destroying the moved-from cache releases nothing (the heap is unchanged), so
a handle owned by the destination stays live. -/
theorem C7_move_clears_source_handle (m t : Manager) (h : Heap)
    (h0 : (0 : ℕ) ∉ h.live) :
    (Manager.moveCtor m).2.dis = Dis.empty ∧
    (Manager.moveCtor m).1.dis = m.dis ∧
    (Manager.moveAssign t m).2.dis = Dis.empty ∧
    (Manager.moveAssign t m).1.dis = m.dis ∧
    Manager.destroy (Manager.moveCtor m).2 h = h ∧
    (m.dis.handle ∈ h.live →
      m.dis.handle ∈ (Manager.destroy (Manager.moveCtor m).2 h).live) := by
  have hdes : Manager.destroy (Manager.moveCtor m).2 h = h := by
    show Heap.release h 0 = h
    unfold Heap.release
    rw [List.erase_of_not_mem h0]
  exact ⟨rfl, rfl, rfl, rfl, hdes, fun hm => by rw [hdes]; exact hm⟩

/-- C7 witness: concrete managers and a heap with live handles 1 and 2 (and
no null handle), instantiating the move-clearing theorem. -/
theorem C7_witness :
    (Manager.moveCtor sampleManager).2.dis = Dis.empty ∧
    (Manager.moveCtor sampleManager).1.dis = sampleManager.dis ∧
    (Manager.moveAssign sampleManager2 sampleManager).2.dis = Dis.empty ∧
    (Manager.moveAssign sampleManager2 sampleManager).1.dis =
      sampleManager.dis ∧
    Manager.destroy (Manager.moveCtor sampleManager).2 sampleHeap =
      sampleHeap ∧
    sampleManager.dis.handle ∈
      (Manager.destroy (Manager.moveCtor sampleManager).2 sampleHeap).live :=
  ⟨(C7_move_clears_source_handle sampleManager sampleManager2 sampleHeap
      (by decide)).1,
    (C7_move_clears_source_handle sampleManager sampleManager2 sampleHeap
      (by decide)).2.1,
    (C7_move_clears_source_handle sampleManager sampleManager2 sampleHeap
      (by decide)).2.2.1,
    (C7_move_clears_source_handle sampleManager sampleManager2 sampleHeap
      (by decide)).2.2.2.1,
    (C7_move_clears_source_handle sampleManager sampleManager2 sampleHeap
      (by decide)).2.2.2.2.1,
    (C7_move_clears_source_handle sampleManager sampleManager2 sampleHeap
      (by decide)).2.2.2.2.2 (by decide)⟩

/-- C9: move construction and move assignment clear only the source's
distribution and leave the source's stored lambda unchanged; consequently,
`set_lambda` on the moved-from cache with the lambda it held before the move
is treated as unchanged and is a complete no-op, leaving the moved-from
cache with no sampling structure. -/
theorem C9_move_preserves_lambda (build : ℚ → List ℚ × ℤ × ℤ)
    (m t : Manager) (h : Heap) :
    (Manager.moveCtor m).2.lambda = m.lambda ∧
    (Manager.moveAssign t m).2.lambda = m.lambda ∧
    Manager.set_lambda build (Manager.moveCtor m).2 m.lambda h =
      ((Manager.moveCtor m).2, h) ∧
    Manager.set_lambda build (Manager.moveAssign t m).2 m.lambda h =
      ((Manager.moveAssign t m).2, h) ∧
    (Manager.moveCtor m).2.dis = Dis.empty := by
  refine ⟨rfl, rfl, ?_, ?_, rfl⟩
  · simp [Manager.set_lambda, Manager.moveCtor]
  · simp [Manager.set_lambda, Manager.moveAssign]

/-- C3: for every positive lambda the builder's window geometry follows the
source formulas `capacity = 2 * floor(16 * (2 + sqrt(lambda)))` and
`left = floor(lambda) - capacity/2`; concretely, lambda = 10 gives
`capacity = 164` and `left = -72`. -/
theorem C3_capacity_and_center (lambda : ℝ) (hpos : 0 < lambda) :
    (capacityOf lambda = 2 * ⌊16 * (2 + Real.sqrt lambda)⌋₊ ∧
      leftOf lambda (capacityOf lambda) =
        ⌊lambda⌋ - ((capacityOf lambda / 2 : ℕ) : ℤ)) ∧
    (lambda = 10 → capacityOf lambda = 164 ∧
      leftOf lambda (capacityOf lambda) = -72) := by
  refine ⟨⟨rfl, rfl⟩, ?_⟩
  intro h10
  subst h10
  have hsq_lt : Real.sqrt 10 < 51 / 16 := by
    rw [Real.sqrt_lt' (by norm_num : (0 : ℝ) < 51 / 16)]
    norm_num
  have hsq_ge : (25 / 8 : ℝ) ≤ Real.sqrt 10 := by
    rw [Real.le_sqrt' (by norm_num : (0 : ℝ) < 25 / 8)]
    norm_num
  have hfloor : ⌊16 * (2 + Real.sqrt 10)⌋₊ = 82 := by
    rw [Nat.floor_eq_iff (by positivity)]
    constructor
    · push_cast
      linarith
    · push_cast
      linarith
  have hcap : capacityOf 10 = 164 := by
    unfold capacityOf
    rw [hfloor]
  refine ⟨hcap, ?_⟩
  unfold leftOf
  rw [hcap]
  norm_num

/-- C3 witness: the theorem instantiated at lambda = 10 produces the
concrete window geometry `capacity = 164` and `left = -72`. -/
theorem C3_witness :
    capacityOf 10 = 164 ∧ leftOf 10 (capacityOf 10) = -72 :=
  (C3_capacity_and_center 10 (by norm_num)).2 rfl

end RocrandPoisson
